import Mathlib

set_option maxHeartbeats 1000000

/-!
Shallow embedding of the machine-name detection heuristic of
`September 2025/build_prod_logs.py` and `September 2025/build_prod_logs_append.py`
(the two scripts contain identical copies of `normalize`, `flex`,
`build_machine_catalog` and `detect_machine_per_page`).

Strings are handled through their character lists.  Python's `str.lower` is
modelled on the ASCII range (`lowerChar`), and the whitespace class used by
`\s` and `str.strip` by `isWsChar` (the six ASCII whitespace characters).
RapidFuzz similarity scores are modelled by an abstract integer-valued scorer
`W : String → String → Int`: every statement below concerns how the code
combines, selects and compares the scores, never the numeric value of
`fuzz.WRatio` itself.
-/

namespace ProdLogs

/-- The six ASCII whitespace characters: Python's `\s` class and the
characters removed by `str.strip()`. -/
def isWsChar (c : Char) : Bool :=
  c == ' ' || c == '\t' || c == '\n' || c == '\r' || c == '\x0b' || c == '\x0c'

/-- The characters collapsed by `re.sub(r"[_\-]+", " ", s)`. -/
def isDashChar (c : Char) : Bool := c == '-' || c == '_'

/-- ASCII lower-casing; model of Python `str.lower` (all strings the program
manipulates for matching are treated ASCII-wise). -/
def lowerChar (c : Char) : Char :=
  if h : 65 ≤ c.toNat ∧ c.toNat ≤ 90 then
    Char.ofNatAux (c.toNat + 32) (Or.inl (by omega))
  else c

/-- ASCII upper-casing (used only to state claim C2's claimed variant scheme). -/
def upperChar (c : Char) : Char :=
  if h : 97 ≤ c.toNat ∧ c.toNat ≤ 122 then
    Char.ofNatAux (c.toNat - 32) (Or.inl (by omega))
  else c

/-- Replace every maximal run of characters satisfying `p` by the single
character `r`; models `re.sub(r"[_\-]+", " ", s)` and `re.sub(r"\s+", " ", s)`.
The boolean flag records whether the previous character belonged to a run. -/
def squashRuns (p : Char → Bool) (r : Char) : Bool → List Char → List Char
  | _, [] => []
  | prev, c :: cs =>
    if p c then
      if prev then squashRuns p r true cs else r :: squashRuns p r true cs
    else c :: squashRuns p r false cs

/-- Drop leading whitespace. -/
def lstripWs (l : List Char) : List Char := l.dropWhile isWsChar

/-- Drop trailing whitespace. -/
def rstripWs (l : List Char) : List Char := (l.reverse.dropWhile isWsChar).reverse

/-- Python `str.strip()`. -/
def pyStrip (l : List Char) : List Char := rstripWs (lstripWs l)

/-- `normalize` on character lists: lower-case, collapse runs of `-`/`_` to a
single space, collapse whitespace runs to a single space, strip. -/
def normalizeL (l : List Char) : List Char :=
  pyStrip (squashRuns isWsChar ' ' false (squashRuns isDashChar ' ' false (l.map lowerChar)))

/-- `normalize` from the source (both scripts, lines 14-18 resp. 15-19). -/
def normalize (s : String) : String := ⟨normalizeL s.data⟩

/-- The characters Python `re.escape` (3.7+) prefixes with a backslash. -/
def reSpecials : List Char :=
  ['(', ')', '[', ']', '\x7b', '\x7d', '?', '*', '+', '-', '|', '^', '$',
   '\\', '.', '&', '~', '#', ' ', '\t', '\n', '\r', '\x0b', '\x0c']

/-- `re.escape` on one character. -/
def reEscapeChar (c : Char) : List Char := if c ∈ reSpecials then ['\\', c] else [c]

/-- The separator class of `re.split(r"[ \-_]+", token)`. -/
def isSplitSep (c : Char) : Bool := c == ' ' || c == '-' || c == '_'

/-- Accumulator-based splitter: `acc` holds the reversed current run of
non-separator characters. -/
def chunksAux : List Char → List Char → List (List Char)
  | [], acc => if acc.isEmpty then [] else [acc.reverse]
  | c :: cs, acc =>
    if isSplitSep c then
      if acc.isEmpty then chunksAux cs [] else acc.reverse :: chunksAux cs []
    else chunksAux cs (c :: acc)

/-- The maximal runs of non-separator characters of a token:
`re.split(r"[ \-_]+", token)` with the empty pieces dropped
(`[re.escape(p) for p in parts if p]`). -/
def chunksNonSep (l : List Char) : List (List Char) := chunksAux l []

/-- The joiner string `[\s\-_]*` used by `flex`. -/
def gapStr : List Char := ['[', '\\', 's', '\\', '-', '_', ']', '*']

/-- `pattern.replace(r"\#", r"\s*#\s*")`. -/
def replaceHash : List Char → List Char
  | '\\' :: '#' :: rest => '\\' :: 's' :: '*' :: '#' :: '\\' :: 's' :: '*' :: replaceHash rest
  | c :: rest => c :: replaceHash rest
  | [] => []

/-- `flex` from the source: strip the token, split it on runs of
space/hyphen/underscore, escape every piece, join the pieces with `[\s\-_]*`,
and make the spacing around `#` optional. -/
def flex (token : String) : String :=
  let t := pyStrip token.data
  if t = [] then ""
  else ⟨replaceHash (List.intercalate gapStr ((chunksNonSep t).map (fun p => p.flatMap reEscapeChar)))⟩

/-- The three syntactic atoms of the restricted regexes `flex` emits:
literal characters, the separator class `[\s\-_]*`, and `\s*`. -/
inductive PatElem where
  | lit (c : Char)
  | gap
  | ws
deriving DecidableEq

/-- Interpret a regex string emitted by `flex` (only the constructs `flex`
produces arise: the joiner `[\s\-_]*`, the `\s*` inserted around `#`,
backslash-escaped literals, and plain literals). -/
def parsePat : List Char → List PatElem
  | '[' :: '\\' :: 's' :: '\\' :: '-' :: '_' :: ']' :: '*' :: rest => PatElem.gap :: parsePat rest
  | '\\' :: 's' :: '*' :: rest => PatElem.ws :: parsePat rest
  | '\\' :: c :: rest => PatElem.lit c :: parsePat rest
  | c :: rest => PatElem.lit c :: parsePat rest
  | [] => []

/-- The character class `[\s\-_]`. -/
def gapChar (c : Char) : Bool := isWsChar c || c == '-' || c == '_'

/-- Does the pattern match some prefix of the text, case-insensitively?
A starred class may absorb any number of leading class characters
(all absorption counts are tried, so the match is complete, not greedy). -/
def matchHere : List PatElem → List Char → Bool
  | [], _ => true
  | PatElem.lit _ :: _, [] => false
  | PatElem.lit c :: ps, d :: ds => (lowerChar c == lowerChar d) && matchHere ps ds
  | PatElem.gap :: ps, ds =>
    (List.range (ds.length + 1)).any (fun k => (ds.take k).all gapChar && matchHere ps (ds.drop k))
  | PatElem.ws :: ps, ds =>
    (List.range (ds.length + 1)).any (fun k => (ds.take k).all isWsChar && matchHere ps (ds.drop k))

/-- `re.search(rx, raw, flags=re.IGNORECASE)` for the patterns `flex` emits:
does the pattern match starting at any position of the text? -/
def searchPat (pat : List PatElem) : List Char → Bool
  | [] => matchHere pat []
  | d :: ds => matchHere pat (d :: ds) || searchPat pat ds

/-- Case-insensitive regex search of a `flex` pattern string in a raw text. -/
def reSearchCI (rx raw : String) : Bool := searchPat (parsePat rx.data) raw.data

/-- The hard-coded machine display names, in catalog order. -/
def display_names : List String :=
  ["AW1", "Cutter1", "Cutter2", "Die-cutter", "Jennerjahn",
   "Pc1", "Pc2", "Pc3", "Pc5", "Sheeter1", "Sheeter2"]

/-- Python `str.lower` (ASCII model). -/
def pyLower (s : String) : String := ⟨s.data.map lowerChar⟩

/-- Python `str.upper` (ASCII model, used only for claim C2's claimed scheme). -/
def pyUpper (s : String) : String := ⟨s.data.map upperChar⟩

/-- `re.search(r"(\d+)$", low)`: the maximal trailing run of digits
(empty when the string does not end in a digit). -/
def trailingDigits (s : String) : String := ⟨(s.data.reverse.takeWhile Char.isDigit).reverse⟩

/-- `low.startswith(pre)`. -/
def startsWithStr (pre s : String) : Bool := s.data.take pre.data.length == pre.data

/-- The raw textual variants `build_machine_catalog` accumulates for one display
name (source lines 74-109).  The list models the Python set; duplicates are
harmless because the patterns are deduplicated below and the fuzzy pass only
takes maxima over the variants of a name. -/
def rawVariantsList (disp : String) : List String :=
  let low := pyLower disp
  let n := trailingDigits low
  [disp]
  ++ (if startsWithStr "cutter" low && (n != "") then
      ["CUTTER " ++ n, "CUTTER #" ++ n, "CUTTER_" ++ n, "CUTTER-" ++ n,
       "Cutter " ++ n, "Cutter #" ++ n, "Cutter_" ++ n, "Cutter-" ++ n,
       "CUTTER#" ++ n, "Cutter#" ++ n] else [])
  ++ (if startsWithStr "pc" low && (n != "") then
      ["PC" ++ n, "PC " ++ n, "PC_" ++ n, "PC-" ++ n, "Pc" ++ n, "Pc " ++ n] else [])
  ++ (if startsWithStr "sheeter" low && (n != "") then
      ["SHEETER" ++ n, "SHEETER " ++ n, "SHEETER_" ++ n, "Sheeter " ++ n] else [])
  ++ (if low == "die-cutter" then ["DIE-CUTTER", "DIE CUTTER", "Die Cutter", "Die-Cutter"] else [])
  ++ (if low == "aw1" then ["AW1", "AW 1", "AW-1", "AW_1"] else [])
  ++ (if low == "jennerjahn" then ["JENNERJAHN"] else [])

/-- Insert into a list sorted by the boolean relation `le`. -/
def insertLe {α : Type} (le : α → α → Bool) (a : α) : List α → List α
  | [] => [a]
  | b :: bs => if le a b then a :: b :: bs else b :: insertLe le a bs

/-- Insertion sort by a boolean relation (models Python `sorted`). -/
def sortByLe {α : Type} (le : α → α → Bool) : List α → List α
  | [] => []
  | a :: as => insertLe le a (sortByLe le as)

/-- Lexicographic code-point comparison of character lists. -/
def listCharLe : List Char → List Char → Bool
  | [], _ => true
  | _ :: _, [] => false
  | a :: as, b :: bs =>
    if a.toNat < b.toNat then true
    else if b.toNat < a.toNat then false
    else listCharLe as bs

/-- Python string comparison (lexicographic on code points), as used by `sorted`. -/
def strLe (s t : String) : Bool := listCharLe s.data t.data

/-- The value `build_machine_catalog` stores for one display name:
`sorted({flex(v) for v in variants[disp] if v})` — the deduplicated, sorted
list of compiled pattern strings. -/
def patternsOf (disp : String) : List String :=
  sortByLe strLe (List.eraseDups (((rawVariantsList disp).filter (fun v => v != "")).map flex))

/-- The catalog dictionary built by `build_machine_catalog`: its keys are
exactly the display names. -/
def regex_variants (disp : String) : Option (List String) :=
  if disp ∈ display_names then some (patternsOf disp) else none

/-- `build_machine_catalog()`: the ordered display names and the variant dictionary. -/
def build_machine_catalog : List String × (String → Option (List String)) :=
  (display_names, regex_variants)

/-- Python truthiness of the `chosen` variable (`None` and `""` are falsy). -/
def truthy : Option String → Bool
  | none => false
  | some s => s != ""

/-- Does any compiled pattern of `disp` hit the raw page text
(`re.search(rx, raw, flags=re.IGNORECASE)` over `regex_variants.get(disp, [])`)? -/
def regexHit (rv : String → Option (List String)) (raw disp : String) : Bool :=
  ((rv disp).getD []).any (fun rx => reSearchCI rx raw)

/-- The regex pass of the per-page loop: display names in catalog order,
carrying Python's `chosen` variable; the loop exits as soon as `chosen`
is truthy. -/
def regexPassLoop (rv : String → Option (List String)) (raw : String) :
    List String → Option String → Option String
  | [], chosen => chosen
  | disp :: rest, chosen =>
    if truthy (if regexHit rv raw disp then some disp else chosen) then
      if regexHit rv raw disp then some disp else chosen
    else regexPassLoop rv raw rest (if regexHit rv raw disp then some disp else chosen)

/-- Python `max` over a list of integer scores.  Python raises `ValueError` on
an empty sequence, which is unreachable for the program's catalog (every
variant list is nonempty); the `-1` sentinel stands for that unreachable case,
and theorems quantifying over arbitrary catalogs carry a nonemptiness
hypothesis instead. -/
def pyMax : List Int → Int
  | [] => -1
  | x :: xs => xs.foldl max x

/-- The fuzzy score the loop body computes for one display name:
`max(fuzz.WRatio(normalize(v), norm_txt) for v in regex_variants.get(disp, [disp]))`.
The scored strings are the compiled pattern strings stored in the catalog. -/
def scoreOf (W : String → String → Int) (rv : String → Option (List String))
    (disp norm : String) : Int :=
  pyMax (((rv disp).getD [disp]).map (fun v => W (normalize v) norm))

/-- The fuzzy ranking loop: a later display name replaces the current best
only on a strictly greater score. -/
def fuzzyLoop (W : String → String → Int) (rv : String → Option (List String))
    (norm : String) : List String → Option String × Int → Option String × Int
  | [], acc => acc
  | disp :: rest, (bd, bs) =>
    if scoreOf W rv disp norm > bs then fuzzyLoop W rv norm rest (some disp, scoreOf W rv disp norm)
    else fuzzyLoop W rv norm rest (bd, bs)

/-- The fuzzy fallback step (`if not chosen and norm_txt:` ... source lines
143-152): it runs only when `chosen` is falsy and the normalized text is
nonempty, and it overwrites `chosen` with the best display name exactly when
the best score reaches the threshold. -/
def fuzzyStep (W : String → String → Int) (display_order : List String)
    (rv : String → Option (List String)) (thr : Int) (raw : String)
    (chosen : Option String) : Option String :=
  if truthy chosen = false ∧ normalize raw ≠ "" then
    if (fuzzyLoop W rv (normalize raw) display_order (none, -1)).2 ≥ thr then
      (fuzzyLoop W rv (normalize raw) display_order (none, -1)).1
    else chosen
  else chosen

/-- The final `if chosen:` record step of the loop body: only a truthy
`chosen` is recorded. -/
def keepTruthy (c : Option String) : Option String := if truthy c then c else none

/-- The body of `detect_machine_per_page`'s per-page loop (source lines
128-157): regex pass first, then the fuzzy fallback guarded by the threshold,
then the truthiness test before the page is recorded. -/
def detectPage (W : String → String → Int) (display_order : List String)
    (rv : String → Option (List String)) (thr : Int) (raw : String) : Option String :=
  keepTruthy (fuzzyStep W display_order rv thr raw (regexPassLoop rv raw display_order none))

/-- The keys of a page dictionary. -/
def pageKeys (d : List (Nat × String)) : List Nat := d.map Prod.fst

/-- `detect_machine_per_page`: the page dictionary is an association list with
distinct keys; pages are visited in ascending key order
(`for pg in sorted(page_text.keys())`), `raw = page_text[pg] or ""`, and
unmatched pages are omitted from the result. -/
def detect_machine_per_page (W : String → String → Int) (page_text : List (Nat × String))
    (display_order : List String) (rv : String → Option (List String)) (thr : Int) :
    List (Nat × String) :=
  (sortByLe Nat.ble (pageKeys page_text)).filterMap (fun pg =>
    (detectPage W display_order rv thr ((List.lookup pg page_text).getD "")).map (fun m => (pg, m)))

/-! ## Helper lemmas about the sorting of page keys -/

theorem perm_insertLe {α : Type} (le : α → α → Bool) (a : α) (l : List α) :
    List.Perm (insertLe le a l) (a :: l) := by
  induction l with
  | nil => rfl
  | cons b bs ih =>
    simp only [insertLe]
    split
    · rfl
    · exact (ih.cons b).trans (List.Perm.swap a b bs)

theorem perm_sortByLe {α : Type} (le : α → α → Bool) (l : List α) :
    List.Perm (sortByLe le l) l := by
  induction l with
  | nil => rfl
  | cons a as ih => exact (perm_insertLe le a (sortByLe le as)).trans (ih.cons a)

/-! ## Helper lemmas about lookup in association lists -/

theorem lookup_none_iff (d : List (Nat × String)) (p : Nat) :
    List.lookup p d = none ↔ p ∉ pageKeys d := by
  induction d with
  | nil => simp [pageKeys]
  | cons kv d ih =>
    obtain ⟨k, v⟩ := kv
    simp only [pageKeys, List.map_cons, List.mem_cons]
    by_cases h : p = k
    · subst h
      simp [List.lookup_cons]
    · have hb : (p == k) = false := beq_eq_false_iff_ne.mpr h
      simp only [List.lookup_cons, hb]
      simp only [pageKeys] at ih
      rw [ih]
      constructor
      · intro hn hc
        rcases hc with hc | hc
        · exact h hc
        · exact hn hc
      · intro hn hc
        exact hn (Or.inr hc)

theorem lookup_filterMap_none (f : Nat → Option String) (L : List Nat) (p : Nat)
    (hp : p ∉ L) :
    List.lookup p (L.filterMap (fun pg => (f pg).map (fun m => (pg, m)))) = none := by
  induction L with
  | nil => rfl
  | cons q L ih =>
    have hq : p ≠ q := fun e => hp (e ▸ List.mem_cons_self q L)
    have hpL : p ∉ L := fun h => hp (List.mem_cons_of_mem _ h)
    have hb : (p == q) = false := beq_eq_false_iff_ne.mpr hq
    cases hf : f q with
    | none => simpa [List.filterMap_cons, hf] using ih hpL
    | some m => simp [List.filterMap_cons, hf, List.lookup_cons, hb, ih hpL]

theorem lookup_filterMap_detect (f : Nat → Option String) (L : List Nat) (hnd : L.Nodup)
    (p : Nat) :
    List.lookup p (L.filterMap (fun pg => (f pg).map (fun m => (pg, m)))) =
      if p ∈ L then f p else none := by
  induction L with
  | nil => simp
  | cons q L ih =>
    rcases List.nodup_cons.mp hnd with ⟨hqL, hndL⟩
    by_cases hpq : p = q
    · subst hpq
      rw [if_pos (List.mem_cons_self p L)]
      cases hf : f p with
      | none =>
        simp only [List.filterMap_cons, hf]
        exact lookup_filterMap_none f L p hqL
      | some m => simp [List.filterMap_cons, hf, List.lookup_cons]
    · have hb : (p == q) = false := beq_eq_false_iff_ne.mpr hpq
      have hcond : (if p ∈ q :: L then f p else none) = (if p ∈ L then f p else none) := by
        by_cases hm : p ∈ L <;> simp [List.mem_cons, hpq, hm]
      rw [hcond]
      cases hf : f q with
      | none =>
        simp only [List.filterMap_cons, hf]
        exact ih hndL
      | some m =>
        simp only [List.filterMap_cons, hf, Option.map_some']
        rw [List.lookup_cons]
        simp only [hb]
        exact ih hndL

theorem lookup_detect (W : String → String → Int) (d : List (Nat × String))
    (order : List String) (rv : String → Option (List String)) (thr : Int) (p : Nat)
    (hnd : (pageKeys d).Nodup) :
    List.lookup p (detect_machine_per_page W d order rv thr) =
      if p ∈ pageKeys d then detectPage W order rv thr ((List.lookup p d).getD "") else none := by
  unfold detect_machine_per_page
  have hperm := perm_sortByLe Nat.ble (pageKeys d)
  rw [lookup_filterMap_detect _ _ (hperm.nodup_iff.mpr hnd) p]
  by_cases hm : p ∈ pageKeys d
  · rw [if_pos (hperm.mem_iff.mpr hm), if_pos hm]
  · rw [if_neg (fun hc => hm (hperm.mem_iff.mp hc)), if_neg hm]

/-! ## Membership lemmas about the per-page loop -/

theorem regexPassLoop_mem (rv : String → Option (List String)) (raw : String) :
    ∀ (l : List String) (acc : Option String) (v : String),
      regexPassLoop rv raw l acc = some v → v ∈ l ∨ acc = some v := by
  intro l
  induction l with
  | nil => exact fun acc v h => Or.inr h
  | cons disp rest ih =>
    intro acc v h
    unfold regexPassLoop at h
    split at h
    · split at h
      · exact Or.inl ((Option.some.inj h) ▸ List.mem_cons_self disp rest)
      · rcases ih _ _ h with h2 | h2
        · exact Or.inl (List.mem_cons_of_mem _ h2)
        · exact Or.inl ((Option.some.inj h2) ▸ List.mem_cons_self disp rest)
    · split at h
      · exact Or.inr h
      · rcases ih _ _ h with h2 | h2
        · exact Or.inl (List.mem_cons_of_mem _ h2)
        · exact Or.inr h2

theorem fuzzyLoop_mem (W : String → String → Int) (rv : String → Option (List String))
    (norm : String) :
    ∀ (l : List String) (bd : Option String) (bs : Int) (v : String),
      (fuzzyLoop W rv norm l (bd, bs)).1 = some v → v ∈ l ∨ bd = some v := by
  intro l
  induction l with
  | nil => exact fun bd bs v h => Or.inr h
  | cons disp rest ih =>
    intro bd bs v h
    unfold fuzzyLoop at h
    split at h
    · rcases ih _ _ _ h with h2 | h2
      · exact Or.inl (List.mem_cons_of_mem _ h2)
      · exact Or.inl ((Option.some.inj h2).symm ▸ List.mem_cons_self disp rest)
    · rcases ih _ _ _ h with h2 | h2
      · exact Or.inl (List.mem_cons_of_mem _ h2)
      · exact Or.inr h2

theorem fuzzyStep_some_mem (W : String → String → Int) (order : List String)
    (rv : String → Option (List String)) (thr : Int) (raw : String)
    (chosen : Option String) (v : String)
    (h : fuzzyStep W order rv thr raw chosen = some v) :
    v ∈ order ∨ chosen = some v := by
  unfold fuzzyStep at h
  split at h
  · split at h
    · rcases fuzzyLoop_mem W rv (normalize raw) order none (-1) v h with h2 | h2
      · exact Or.inl h2
      · cases h2
    · exact Or.inr h
  · exact Or.inr h

theorem keepTruthy_some (c : Option String) (v : String) (h : keepTruthy c = some v) :
    c = some v ∧ v ≠ "" := by
  unfold keepTruthy at h
  split at h
  · rename_i ht
    refine ⟨h, ?_⟩
    rw [h] at ht
    simpa [truthy] using ht
  · cases h

theorem detectPage_some_mem (W : String → String → Int) (order : List String)
    (rv : String → Option (List String)) (thr : Int) (raw v : String)
    (h : detectPage W order rv thr raw = some v) : v ∈ order ∧ v ≠ "" := by
  unfold detectPage at h
  rcases keepTruthy_some _ _ h with ⟨h1, h2⟩
  refine ⟨?_, h2⟩
  rcases fuzzyStep_some_mem W order rv thr raw _ v h1 with h3 | h3
  · exact h3
  · rcases regexPassLoop_mem rv raw order none v h3 with h4 | h4
    · exact h4
    · cases h4

/-- C8: every entry of the result of `detect_machine_per_page` has a key drawn
from the input mapping's keys and a value that is a nonempty display name of
the supplied catalog order, and the entry's value is exactly the per-page
decision for that key's text; in particular a page whose per-page decision is
`none` (neither a regex hit nor a fuzzy score reaching the threshold) is
entirely absent from the result, and no page is ever present with an empty
value. -/
theorem detect_result_subset_and_values (W : String → String → Int)
    (d : List (Nat × String)) (order : List String) (rv : String → Option (List String))
    (thr : Int) (pg : Nat) (v : String)
    (hmem : (pg, v) ∈ detect_machine_per_page W d order rv thr) :
    pg ∈ pageKeys d ∧ v ∈ order ∧ v ≠ "" ∧
      detectPage W order rv thr ((List.lookup pg d).getD "") = some v := by
  unfold detect_machine_per_page at hmem
  rcases List.mem_filterMap.mp hmem with ⟨a, haL, hfa⟩
  cases hda : detectPage W order rv thr ((List.lookup a d).getD "") with
  | none => rw [hda] at hfa; cases hfa
  | some m =>
    rw [hda] at hfa
    simp only [Option.map_some'] at hfa
    have hpair := Option.some.inj hfa
    rw [Prod.mk.injEq] at hpair
    obtain ⟨rfl, rfl⟩ := hpair
    have hkey : a ∈ pageKeys d := (perm_sortByLe Nat.ble (pageKeys d)).mem_iff.mp haL
    rcases detectPage_some_mem W order rv thr _ m hda with ⟨hv1, hv2⟩
    exact ⟨hkey, hv1, hv2, hda⟩

/-- Closed witness for C8 at a concrete input: the result entry `(1, "AW1")`
of a one-page run satisfies all four conclusions. -/
theorem detect_result_subset_and_values_witness :
    (1, "AW1") ∈ ProdLogs.detect_machine_per_page (fun _ _ => 0) [(1, "AW1")]
        ProdLogs.display_names ProdLogs.regex_variants 85 ∧
      1 ∈ ProdLogs.pageKeys [(1, "AW1")] ∧ "AW1" ∈ ProdLogs.display_names ∧ "AW1" ≠ "" ∧
      ProdLogs.detectPage (fun _ _ => 0) ProdLogs.display_names ProdLogs.regex_variants 85
          ((List.lookup 1 [(1, "AW1")]).getD "") = some "AW1" := by
  have hmem : (1, "AW1") ∈ ProdLogs.detect_machine_per_page (fun _ _ => 0) [(1, "AW1")]
      ProdLogs.display_names ProdLogs.regex_variants 85 := by decide
  have h := detect_result_subset_and_values (fun _ _ => 0) [(1, "AW1")]
    ProdLogs.display_names ProdLogs.regex_variants 85 1 "AW1" hmem
  exact ⟨hmem, h.1, h.2.1, h.2.2.1, h.2.2.2⟩

/-- C10: per-page noninterference — the per-page result of
`detect_machine_per_page` depends only on that page's own text: two page
dictionaries that agree on page `p` (same lookup result) yield detection
results that agree on page `p` (same assigned name, or absent from both). -/
theorem detect_noninterference (W : String → String → Int)
    (d1 d2 : List (Nat × String)) (order : List String)
    (rv : String → Option (List String)) (thr : Int) (p : Nat)
    (h1 : (pageKeys d1).Nodup) (h2 : (pageKeys d2).Nodup)
    (hp : List.lookup p d1 = List.lookup p d2) :
    List.lookup p (detect_machine_per_page W d1 order rv thr) =
      List.lookup p (detect_machine_per_page W d2 order rv thr) := by
  rw [lookup_detect W d1 order rv thr p h1, lookup_detect W d2 order rv thr p h2, hp]
  cases hl : List.lookup p d2 with
  | none =>
    rw [if_neg ((lookup_none_iff d2 p).mp hl),
      if_neg ((lookup_none_iff d1 p).mp (hp.trans hl))]
  | some t =>
    have m2 : p ∈ pageKeys d2 := by
      by_contra hc
      rw [(lookup_none_iff d2 p).mpr hc] at hl
      cases hl
    have m1 : p ∈ pageKeys d1 := by
      by_contra hc
      rw [(lookup_none_iff d1 p).mpr hc] at hp
      rw [hl] at hp
      cases hp
    rw [if_pos m1, if_pos m2]

/-- Closed witness for C10 at a concrete input: two dictionaries agreeing on
page 1 but differing elsewhere give the same result on page 1. -/
theorem detect_noninterference_witness :
    List.lookup 1 (ProdLogs.detect_machine_per_page (fun _ _ => 0) [(1, "Cutter2")]
        ProdLogs.display_names ProdLogs.regex_variants 85) =
      List.lookup 1 (ProdLogs.detect_machine_per_page (fun _ _ => 0)
        [(1, "Cutter2"), (2, "AW1")] ProdLogs.display_names ProdLogs.regex_variants 85) :=
  detect_noninterference (fun _ _ => 0) [(1, "Cutter2")] [(1, "Cutter2"), (2, "AW1")]
    ProdLogs.display_names ProdLogs.regex_variants 85 1 (by decide) (by decide) (by decide)

/-! ## The regex pass -/

theorem regexPassLoop_eq_find (rv : String → Option (List String)) (raw : String) :
    ∀ (l : List String), (∀ d ∈ l, d ≠ "") →
      regexPassLoop rv raw l none = l.find? (fun d => regexHit rv raw d) := by
  intro l
  induction l with
  | nil => intro _; rfl
  | cons disp rest ih =>
    intro hn
    unfold regexPassLoop
    cases hh : regexHit rv raw disp with
    | true =>
      have hd : disp ≠ "" := hn disp (List.mem_cons_self _ _)
      have ht : truthy (some disp) = true := by simp [truthy, hd]
      rw [List.find?_cons_of_pos _ hh]
      simp [ht]
    | false =>
      rw [List.find?_cons_of_neg _ (by simp [hh])]
      have h1 : truthy (none : Option String) = false := rfl
      simp only [Bool.false_eq_true, if_false, h1]
      exact ih (fun d hd => hn d (List.mem_cons_of_mem _ hd))

/-- The first-hit characterization of `List.find?`, phrased with indices. -/
theorem find_first_characterization {p : String → Bool} :
    ∀ (l : List String) (b : String), l.find? p = some b →
      ∃ (i : Nat) (hi : i < l.length), l.get ⟨i, hi⟩ = b ∧ p b = true ∧
        ∀ (j : Nat) (hj : j < i), p (l.get ⟨j, Nat.lt_trans hj hi⟩) = false := by
  intro l
  induction l with
  | nil => intro b h; cases h
  | cons a l ih =>
    intro b h
    by_cases ha : p a = true
    · rw [List.find?_cons_of_pos _ ha] at h
      obtain rfl : a = b := Option.some.inj h
      exact ⟨0, Nat.succ_pos _, rfl, ha, fun j hj => absurd hj (Nat.not_lt_zero j)⟩
    · rw [List.find?_cons_of_neg _ ha] at h
      rcases ih b h with ⟨i, hi, hget, hpb, hprev⟩
      refine ⟨i + 1, Nat.succ_lt_succ hi, by simpa using hget, hpb, ?_⟩
      intro j hj
      cases j with
      | zero => simpa [Bool.not_eq_true] using ha
      | succ j => simpa using hprev j (Nat.lt_of_succ_lt_succ hj)

/-- Shared helper: when some display name's patterns hit the raw text (and all
names are nonempty strings), the per-page result is exactly the regex pass's
first hit, for every scorer and threshold. -/
theorem detectPage_of_regexHit (W : String → String → Int) (order : List String)
    (rv : String → Option (List String)) (thr : Int) (raw : String)
    (hn : ∀ d ∈ order, d ≠ "") (hex : ∃ A ∈ order, regexHit rv raw A = true) :
    detectPage W order rv thr raw = order.find? (fun d => regexHit rv raw d) ∧
      ∃ B, order.find? (fun d => regexHit rv raw d) = some B ∧ regexHit rv raw B = true := by
  obtain ⟨A, hA, hhit⟩ := hex
  obtain ⟨B, hB⟩ : ∃ B, order.find? (fun d => regexHit rv raw d) = some B := by
    have hs : (order.find? (fun d => regexHit rv raw d)).isSome := by
      rw [List.find?_isSome]
      exact ⟨A, hA, hhit⟩
    exact Option.isSome_iff_exists.mp hs
  have hpB : regexHit rv raw B = true := List.find?_some hB
  have hBmem : B ∈ order := List.mem_of_find?_eq_some hB
  have hBne : B ≠ "" := hn B hBmem
  have ht : truthy (some B) = true := by simp [truthy, hBne]
  have hloop : regexPassLoop rv raw order none = some B := by
    rw [regexPassLoop_eq_find rv raw order hn, hB]
  constructor
  · unfold detectPage
    rw [hloop, hB]
    unfold fuzzyStep keepTruthy
    have hcond : ¬(truthy (some B) = false ∧ normalize raw ≠ "") := by simp [ht]
    rw [if_neg hcond, if_pos ht]
  · exact ⟨B, hB, hpB⟩

/-- C4: if any compiled flexible pattern of any display name `A` finds a
case-insensitive match in the raw page text, the page's result equals the
regex pass's result — a display name whose patterns hit — for every scorer `W`
and every threshold, so the fuzzy scores can never influence such a page
(even a scorer ranking some other name higher is ignored).  Hypothesis `hn`
records that the display names are nonempty strings, as the hard-coded
catalog's are (an empty name would be falsy in Python and would not
short-circuit the loop). -/
theorem c4_regex_precedence (W : String → String → Int) (order : List String)
    (rv : String → Option (List String)) (thr : Int) (raw : String) (A : String)
    (hn : ∀ d ∈ order, d ≠ "") (hA : A ∈ order) (hhit : regexHit rv raw A = true) :
    detectPage W order rv thr raw = order.find? (fun d => regexHit rv raw d) ∧
      ∃ B, order.find? (fun d => regexHit rv raw d) = some B ∧ regexHit rv raw B = true :=
  detectPage_of_regexHit W order rv thr raw hn ⟨A, hA, hhit⟩

/-- Closed witness for C4: on the page text `"Cutter2 run log"`, whose catalog
patterns hit for `"Cutter2"`, the result is the regex pass's first hit for
every aspect instantiated concretely. -/
theorem c4_regex_precedence_witness :
    ProdLogs.detectPage (fun _ _ => 100) ProdLogs.display_names ProdLogs.regex_variants 0
        "Cutter2 run log" =
      ProdLogs.display_names.find?
        (fun d => ProdLogs.regexHit ProdLogs.regex_variants "Cutter2 run log" d) ∧
      ∃ B, ProdLogs.display_names.find?
          (fun d => ProdLogs.regexHit ProdLogs.regex_variants "Cutter2 run log" d) = some B ∧
        ProdLogs.regexHit ProdLogs.regex_variants "Cutter2 run log" B = true :=
  c4_regex_precedence (fun _ _ => 100) ProdLogs.display_names ProdLogs.regex_variants 0
    "Cutter2 run log" "Cutter2" (by decide) (by decide) (by decide)

/-- C5: in the regex pass, when some display name's patterns hit the page
text, the assigned name is the one at the least catalog index with a hit:
every display name earlier in the catalog order has no matching pattern.
In particular, for a text satisfying patterns of two or more names, the name
appearing earliest in the catalog's display-name list is chosen. -/
theorem c5_regex_first_in_catalog_order (W : String → String → Int) (order : List String)
    (rv : String → Option (List String)) (thr : Int) (raw : String)
    (hn : ∀ d ∈ order, d ≠ "") (hex : ∃ A ∈ order, regexHit rv raw A = true) :
    ∃ (i : Nat) (hi : i < order.length),
      detectPage W order rv thr raw = some (order.get ⟨i, hi⟩) ∧
      regexHit rv raw (order.get ⟨i, hi⟩) = true ∧
      ∀ (j : Nat) (hj : j < i), regexHit rv raw (order.get ⟨j, Nat.lt_trans hj hi⟩) = false := by
  rcases detectPage_of_regexHit W order rv thr raw hn hex with ⟨hEq, B, hB, _⟩
  rcases find_first_characterization order B hB with ⟨i, hi, hget, hpb, hprev⟩
  refine ⟨i, hi, ?_, hget ▸ hpb, hprev⟩
  rw [hEq, hB, hget]

/-- Closed witness for C5: the text `"AW1 Cutter1"` satisfies patterns of both
`"AW1"` (index 0) and `"Cutter1"` (index 1); the result is the catalog-earliest
hit. -/
theorem c5_regex_first_in_catalog_order_witness :
    ∃ (i : Nat) (hi : i < ProdLogs.display_names.length),
      ProdLogs.detectPage (fun _ _ => 0) ProdLogs.display_names ProdLogs.regex_variants 85
          "AW1 Cutter1" = some (ProdLogs.display_names.get ⟨i, hi⟩) ∧
      ProdLogs.regexHit ProdLogs.regex_variants "AW1 Cutter1"
          (ProdLogs.display_names.get ⟨i, hi⟩) = true ∧
      ∀ (j : Nat) (hj : j < i), ProdLogs.regexHit ProdLogs.regex_variants "AW1 Cutter1"
          (ProdLogs.display_names.get ⟨j, Nat.lt_trans hj hi⟩) = false :=
  c5_regex_first_in_catalog_order (fun _ _ => 0) ProdLogs.display_names
    ProdLogs.regex_variants 85 "AW1 Cutter1" (by decide)
    ⟨"AW1", by decide, by decide⟩

/-- C3: for every display name `D` of the hard-coded catalog, every scorer and
every fuzzy threshold, running detection on the single-page input `{1 : D}`
with the built catalog returns exactly `{1 : D}`: the page's own display-name
text is matched by the regex pass and assigned to `D` itself, not to any other
catalog entry (the fuzzy branch is never reached). -/
theorem c3_self_match (W : String → String → Int) (thr : Int) (D : String)
    (hD : D ∈ display_names) :
    detect_machine_per_page W [(1, D)] display_names regex_variants thr = [(1, D)] := by
  fin_cases hD <;> rfl

/-- Closed witness for C3 at the concrete display name `"Cutter1"`. -/
theorem c3_self_match_witness :
    ProdLogs.detect_machine_per_page (fun _ _ => 0) [(1, "Cutter1")] ProdLogs.display_names
      ProdLogs.regex_variants 85 = [(1, "Cutter1")] :=
  c3_self_match (fun _ _ => 0) 85 "Cutter1" (by decide)

/-! ## The fuzzy fallback -/

theorem le_foldl_max (l : List Int) : ∀ (a : Int), a ≤ l.foldl max a := by
  induction l with
  | nil => exact fun a => le_refl a
  | cons b l ih => exact fun a => le_trans (le_max_left a b) (ih (max a b))

theorem foldl_max_mem_le (l : List Int) : ∀ (a x : Int), x ∈ l → x ≤ l.foldl max a := by
  induction l with
  | nil => intro a x hx; cases hx
  | cons b l ih =>
    intro a x hx
    rcases List.mem_cons.mp hx with rfl | hx
    · exact le_trans (le_max_right a x) (le_foldl_max l (max a x))
    · exact ih (max a b) x hx

theorem foldl_max_of_le (l : List Int) : ∀ (a : Int), (∀ x ∈ l, x ≤ a) → l.foldl max a = a := by
  induction l with
  | nil => intro a _; rfl
  | cons b l ih =>
    intro a h
    have hb : max a b = a := max_eq_left (h b (List.mem_cons_self b l))
    simp only [List.foldl_cons, hb]
    exact ih a (fun x hx => h x (List.mem_cons_of_mem _ hx))

theorem foldl_max_eq_or_mem (l : List Int) : ∀ (a : Int), l.foldl max a = a ∨ l.foldl max a ∈ l := by
  induction l with
  | nil => exact fun a => Or.inl rfl
  | cons b l ih =>
    intro a
    simp only [List.foldl_cons]
    rcases ih (max a b) with h | h
    · rcases max_choice a b with hm | hm
      · exact Or.inl (h.trans hm)
      · exact Or.inr (List.mem_cons.mpr (Or.inl (h.trans hm)))
    · exact Or.inr (List.mem_cons_of_mem _ h)

theorem fuzzyLoop_snd (W : String → String → Int) (rv : String → Option (List String))
    (norm : String) :
    ∀ (l : List String) (bd : Option String) (bs : Int),
      (fuzzyLoop W rv norm l (bd, bs)).2 =
        (l.map (fun d => scoreOf W rv d norm)).foldl max bs := by
  intro l
  induction l with
  | nil => intro bd bs; rfl
  | cons disp rest ih =>
    intro bd bs
    unfold fuzzyLoop
    simp only [List.map_cons, List.foldl_cons]
    by_cases hgt : scoreOf W rv disp norm > bs
    · rw [if_pos hgt, ih, max_eq_right (le_of_lt hgt)]
    · rw [if_neg hgt, ih, max_eq_left (le_of_not_lt hgt)]

theorem fuzzyLoop_stable (W : String → String → Int) (rv : String → Option (List String))
    (norm : String) :
    ∀ (l : List String) (bd : Option String) (bs : Int),
      (∀ d ∈ l, scoreOf W rv d norm ≤ bs) → fuzzyLoop W rv norm l (bd, bs) = (bd, bs) := by
  intro l
  induction l with
  | nil => intro bd bs _; rfl
  | cons disp rest ih =>
    intro bd bs h
    unfold fuzzyLoop
    rw [if_neg (not_lt_of_le (h disp (List.mem_cons_self _ _)))]
    exact ih bd bs (fun d hd => h d (List.mem_cons_of_mem _ hd))


theorem fuzzyLoop_fst_find (W : String → String → Int) (rv : String → Option (List String))
    (norm : String) :
    ∀ (l : List String) (bd : Option String) (bs : Int),
      (∃ d ∈ l, bs < scoreOf W rv d norm) →
      (fuzzyLoop W rv norm l (bd, bs)).1 =
        l.find? (fun d => scoreOf W rv d norm ==
          (l.map (fun d => scoreOf W rv d norm)).foldl max bs) := by
  intro l
  induction l with
  | nil => intro bd bs hex; rcases hex with ⟨d, hd, _⟩; cases hd
  | cons disp rest ih =>
    intro bd bs hex
    have hM : ((disp :: rest).map (fun d => scoreOf W rv d norm)).foldl max bs =
        (rest.map (fun d => scoreOf W rv d norm)).foldl max (max bs (scoreOf W rv disp norm)) := by
      simp [List.map_cons, List.foldl_cons]
    by_cases hgt : scoreOf W rv disp norm > bs
    · have hmax : max bs (scoreOf W rv disp norm) = scoreOf W rv disp norm :=
        max_eq_right (le_of_lt hgt)
      by_cases hall : ∀ e ∈ rest, scoreOf W rv e norm ≤ scoreOf W rv disp norm
      · have hMv : ((disp :: rest).map (fun d => scoreOf W rv d norm)).foldl max bs =
            scoreOf W rv disp norm := by
          rw [hM, hmax]
          exact foldl_max_of_le _ _ (fun x hx => by
            rcases List.mem_map.mp hx with ⟨e, he, rfl⟩
            exact hall e he)
        have hpred : (scoreOf W rv disp norm ==
            ((disp :: rest).map (fun d => scoreOf W rv d norm)).foldl max bs) = true := by
          rw [hMv]
          exact beq_self_eq_true _
        have hfind : List.find? (fun d => scoreOf W rv d norm ==
            ((disp :: rest).map (fun d => scoreOf W rv d norm)).foldl max bs) (disp :: rest) =
            some disp := List.find?_cons_of_pos rest hpred
        rw [hfind]
        unfold fuzzyLoop
        rw [if_pos hgt]
        rw [fuzzyLoop_stable W rv norm rest (some disp) (scoreOf W rv disp norm) hall]
      · push_neg at hall
        rcases hall with ⟨e, he, hgt2⟩
        have hMgt : scoreOf W rv disp norm <
            ((disp :: rest).map (fun d => scoreOf W rv d norm)).foldl max bs := by
          rw [hM, hmax]
          exact lt_of_lt_of_le hgt2 (foldl_max_mem_le _ _ _ (List.mem_map_of_mem _ he))
        have hpred : (scoreOf W rv disp norm ==
            ((disp :: rest).map (fun d => scoreOf W rv d norm)).foldl max bs) = false :=
          beq_eq_false_iff_ne.mpr (ne_of_lt hMgt)
        have hfind : List.find? (fun d => scoreOf W rv d norm ==
            ((disp :: rest).map (fun d => scoreOf W rv d norm)).foldl max bs) (disp :: rest) =
            List.find? (fun d => scoreOf W rv d norm ==
              ((disp :: rest).map (fun d => scoreOf W rv d norm)).foldl max bs) rest :=
          List.find?_cons_of_neg rest (fun hc => absurd (eq_of_beq hc) (ne_of_lt hMgt))
        rw [hfind]
        unfold fuzzyLoop
        rw [if_pos hgt]
        rw [ih (some disp) (scoreOf W rv disp norm) ⟨e, he, hgt2⟩, hM, hmax]
    · have hle : scoreOf W rv disp norm ≤ bs := le_of_not_lt hgt
      have hmax : max bs (scoreOf W rv disp norm) = bs := max_eq_left hle
      rcases hex with ⟨d, hd, hgt3⟩
      have hdrest : d ∈ rest := by
        rcases List.mem_cons.mp hd with rfl | h
        · exact absurd hgt3 hgt
        · exact h
      have hMgt : scoreOf W rv disp norm <
          ((disp :: rest).map (fun d => scoreOf W rv d norm)).foldl max bs := by
        rw [hM, hmax]
        exact lt_of_le_of_lt hle
          (lt_of_lt_of_le hgt3 (foldl_max_mem_le _ _ _ (List.mem_map_of_mem _ hdrest)))
      have hpred : (scoreOf W rv disp norm ==
          ((disp :: rest).map (fun d => scoreOf W rv d norm)).foldl max bs) = false :=
        beq_eq_false_iff_ne.mpr (ne_of_lt hMgt)
      have hfind : List.find? (fun d => scoreOf W rv d norm ==
          ((disp :: rest).map (fun d => scoreOf W rv d norm)).foldl max bs) (disp :: rest) =
          List.find? (fun d => scoreOf W rv d norm ==
            ((disp :: rest).map (fun d => scoreOf W rv d norm)).foldl max bs) rest :=
        List.find?_cons_of_neg rest (fun hc => absurd (eq_of_beq hc) (ne_of_lt hMgt))
      rw [hfind]
      unfold fuzzyLoop
      rw [if_neg hgt]
      rw [ih bd bs ⟨d, hdrest, hgt3⟩, hM, hmax]

theorem regexPassLoop_no_hit (rv : String → Option (List String)) (raw : String) :
    ∀ (l : List String), (∀ d ∈ l, regexHit rv raw d = false) →
      regexPassLoop rv raw l none = none := by
  intro l
  induction l with
  | nil => intro _; rfl
  | cons disp rest ih =>
    intro h
    unfold regexPassLoop
    have hh : regexHit rv raw disp = false := h disp (List.mem_cons_self _ _)
    simp only [hh, Bool.false_eq_true, if_false]
    have h1 : truthy (none : Option String) = false := rfl
    simp only [h1, Bool.false_eq_true, if_false]
    exact ih (fun d hd => h d (List.mem_cons_of_mem _ hd))

/-- Shared helper: with no regex hit anywhere and a nonempty normalized text,
the per-page result is the fuzzy decision: the best name when its score
reaches the threshold (filtered through Python truthiness), nothing
otherwise. -/
theorem detectPage_fuzzy_case (W : String → String → Int) (order : List String)
    (rv : String → Option (List String)) (thr : Int) (raw : String)
    (hnr : ∀ d ∈ order, regexHit rv raw d = false) (hne : normalize raw ≠ "") :
    detectPage W order rv thr raw =
      if (fuzzyLoop W rv (normalize raw) order (none, -1)).2 ≥ thr then
        keepTruthy (fuzzyLoop W rv (normalize raw) order (none, -1)).1
      else none := by
  unfold detectPage
  rw [regexPassLoop_no_hit rv raw order hnr]
  unfold fuzzyStep
  rw [if_pos ⟨rfl, hne⟩]
  split
  · rfl
  · rfl

/-- Shared helper: with nonnegative scores and a nonempty catalog order, the
fuzzy loop ends with `best_disp = some dmax` for the first display name `dmax`
(in catalog order) whose score equals the final best score. -/
theorem fuzzyBest_some (W : String → String → Int) (rv : String → Option (List String))
    (norm : String) (order : List String)
    (hsc : ∀ d ∈ order, 0 ≤ scoreOf W rv d norm) (hord : order ≠ []) :
    ∃ dmax, (fuzzyLoop W rv norm order (none, -1)).1 = some dmax ∧ dmax ∈ order ∧
      (fuzzyLoop W rv norm order (none, -1)).1 =
        order.find? (fun d => scoreOf W rv d norm ==
          (fuzzyLoop W rv norm order (none, -1)).2) := by
  obtain ⟨e, rest, rfl⟩ : ∃ e rest, order = e :: rest := by
    cases order with
    | nil => exact absurd rfl hord
    | cons e rest => exact ⟨e, rest, rfl⟩
  have hex : ∃ d ∈ e :: rest, (-1 : Int) < scoreOf W rv d norm :=
    ⟨e, List.mem_cons_self _ _,
      lt_of_lt_of_le (by norm_num) (hsc e (List.mem_cons_self _ _))⟩
  have hsnd := fuzzyLoop_snd W rv norm (e :: rest) none (-1)
  have hfst := fuzzyLoop_fst_find W rv norm (e :: rest) none (-1) hex
  have hfind : ∃ dmax, (e :: rest).find? (fun d => scoreOf W rv d norm ==
      ((e :: rest).map (fun d => scoreOf W rv d norm)).foldl max (-1)) = some dmax := by
    have hMmem : ((e :: rest).map (fun d => scoreOf W rv d norm)).foldl max (-1) ∈
        (e :: rest).map (fun d => scoreOf W rv d norm) := by
      rcases foldl_max_eq_or_mem ((e :: rest).map (fun d => scoreOf W rv d norm)) (-1) with h | h
      · exfalso
        have h0 : (0 : Int) ≤ scoreOf W rv e norm := hsc e (List.mem_cons_self _ _)
        have hle : scoreOf W rv e norm ≤
            ((e :: rest).map (fun d => scoreOf W rv d norm)).foldl max (-1) :=
          foldl_max_mem_le _ _ _ (List.mem_map_of_mem _ (List.mem_cons_self _ _))
        rw [h] at hle
        omega
      · exact h
    rcases List.mem_map.mp hMmem with ⟨dm, hdm, hdmEq⟩
    have hs : ((e :: rest).find? (fun d => scoreOf W rv d norm ==
        ((e :: rest).map (fun d => scoreOf W rv d norm)).foldl max (-1))).isSome := by
      rw [List.find?_isSome]
      refine ⟨dm, hdm, ?_⟩
      rw [hdmEq]
      exact beq_self_eq_true _
    exact Option.isSome_iff_exists.mp hs
  rcases hfind with ⟨dmax, hdmax⟩
  refine ⟨dmax, ?_, List.mem_of_find?_eq_some (by rw [← hsnd] at hdmax; exact hdmax), ?_⟩
  · rw [hfst, hdmax]
  · rw [hfst, hsnd]

/-- C6: in the fuzzy fallback (no regex hit anywhere and a nonempty normalized
page text), when the best score reaches the threshold, the per-page result is
the FIRST display name in catalog iteration order whose score equals the final
best score — the loop replaces the current best only on a strictly greater
score (stable max), so when two or more names achieve the identical maximum
the earliest one in catalog order is selected.  The score hypotheses record
that RapidFuzz scores are nonnegative; the name hypothesis records that the
catalog's display names are nonempty strings. -/
theorem c6_fuzzy_stable_max (W : String → String → Int) (order : List String)
    (rv : String → Option (List String)) (thr : Int) (raw : String)
    (hn : ∀ d ∈ order, d ≠ "")
    (hnr : ∀ d ∈ order, regexHit rv raw d = false)
    (hne : normalize raw ≠ "")
    (hsc : ∀ d ∈ order, 0 ≤ scoreOf W rv d (normalize raw))
    (hord : order ≠ [])
    (hthr : thr ≤ (fuzzyLoop W rv (normalize raw) order (none, -1)).2) :
    detectPage W order rv thr raw =
      order.find? (fun d => scoreOf W rv d (normalize raw) ==
        (fuzzyLoop W rv (normalize raw) order (none, -1)).2) := by
  rcases fuzzyBest_some W rv (normalize raw) order hsc hord with ⟨dmax, hsome, hmem, hfind⟩
  rw [detectPage_fuzzy_case W order rv thr raw hnr hne, if_pos hthr, hsome]
  have ht : truthy (some dmax) = true := by simp [truthy, hn dmax hmem]
  unfold keepTruthy
  rw [if_pos ht, ← hsome, hfind]

/-- Closed witness for C6 at a concrete input: a constant scorer ties all
eleven names at 50; with threshold 40 the result is the catalog's first name. -/
theorem c6_fuzzy_stable_max_witness :
    ProdLogs.detectPage (fun _ _ => 50) ProdLogs.display_names ProdLogs.regex_variants 40
        "zzz" =
      ProdLogs.display_names.find? (fun d => ProdLogs.scoreOf (fun _ _ => 50)
        ProdLogs.regex_variants d (ProdLogs.normalize "zzz") ==
        (ProdLogs.fuzzyLoop (fun _ _ => 50) ProdLogs.regex_variants
          (ProdLogs.normalize "zzz") ProdLogs.display_names (none, -1)).2) :=
  c6_fuzzy_stable_max (fun _ _ => 50) ProdLogs.display_names ProdLogs.regex_variants 40
    "zzz" (by decide) (by decide) (by decide) (by decide) (by decide) (by decide)

/-- C7: threshold boundary of the fuzzy fallback.  With no regex hit anywhere
and a nonempty normalized page text: when the loop's best score equals the
threshold exactly, the page is assigned the best display name (acceptance is
`≥`, not `>`); when the best score is one point below the threshold, the page
is left unmatched.  Score/name hypotheses as in C6. -/
theorem c7_threshold_boundary (W : String → String → Int) (order : List String)
    (rv : String → Option (List String)) (thr : Int) (raw : String)
    (hn : ∀ d ∈ order, d ≠ "")
    (hnr : ∀ d ∈ order, regexHit rv raw d = false)
    (hne : normalize raw ≠ "")
    (hsc : ∀ d ∈ order, 0 ≤ scoreOf W rv d (normalize raw))
    (hord : order ≠ []) :
    ((fuzzyLoop W rv (normalize raw) order (none, -1)).2 = thr →
      detectPage W order rv thr raw = (fuzzyLoop W rv (normalize raw) order (none, -1)).1 ∧
        ∃ d, (fuzzyLoop W rv (normalize raw) order (none, -1)).1 = some d ∧ d ∈ order) ∧
    ((fuzzyLoop W rv (normalize raw) order (none, -1)).2 = thr - 1 →
      detectPage W order rv thr raw = none) := by
  rcases fuzzyBest_some W rv (normalize raw) order hsc hord with ⟨dmax, hsome, hmem, _⟩
  constructor
  · intro hbs
    have ht : truthy (some dmax) = true := by simp [truthy, hn dmax hmem]
    rw [detectPage_fuzzy_case W order rv thr raw hnr hne, if_pos (ge_of_eq hbs), hsome]
    unfold keepTruthy
    rw [if_pos ht]
    exact ⟨rfl, dmax, rfl, hmem⟩
  · intro hbs
    rw [detectPage_fuzzy_case W order rv thr raw hnr hne,
      if_neg (by rw [hbs]; omega)]

/-- Closed witness for C7 at a concrete input: a constant scorer giving every
name score 85 with threshold 85 (score = threshold, accepted as the best
name), and the same run with threshold 86 (score = threshold − 1, page
unmatched). -/
theorem c7_threshold_boundary_witness :
    (ProdLogs.detectPage (fun _ _ => 85) ProdLogs.display_names ProdLogs.regex_variants 85
        "zzz" =
      (ProdLogs.fuzzyLoop (fun _ _ => 85) ProdLogs.regex_variants (ProdLogs.normalize "zzz")
        ProdLogs.display_names (none, -1)).1 ∧
      ∃ d, (ProdLogs.fuzzyLoop (fun _ _ => 85) ProdLogs.regex_variants
          (ProdLogs.normalize "zzz") ProdLogs.display_names (none, -1)).1 = some d ∧
        d ∈ ProdLogs.display_names) ∧
    ProdLogs.detectPage (fun _ _ => 85) ProdLogs.display_names ProdLogs.regex_variants 86
        "zzz" = none := by
  constructor
  · exact (c7_threshold_boundary (fun _ _ => 85) ProdLogs.display_names
      ProdLogs.regex_variants 85 "zzz" (by decide) (by decide) (by decide) (by decide)
      (by decide)).1 (by decide)
  · exact (c7_threshold_boundary (fun _ _ => 85) ProdLogs.display_names
      ProdLogs.regex_variants 86 "zzz" (by decide) (by decide) (by decide) (by decide)
      (by decide)).2 (by decide)

/-! ## Claims C1 and C2 about the catalog's variants -/

/-- The variant-combination scheme claim C2 asserts for display names ending
in a digit after a "cutter"/"pc"/"sheeter" family word: both the
original-cased and the upper-cased family word, combined with the trailing
number, separated by nothing, a space, a hyphen, an underscore, and a `#`
with and without a space around it.  (This follows the claim's words; it is
compared against `rawVariantsList`, which follows the source.) -/
def c2Combos (pre n : String) : List String :=
  [pre ++ n, pre ++ " " ++ n, pre ++ "-" ++ n, pre ++ "_" ++ n,
   pre ++ "#" ++ n, pre ++ " #" ++ n,
   pyUpper pre ++ n, pyUpper pre ++ " " ++ n, pyUpper pre ++ "-" ++ n,
   pyUpper pre ++ "_" ++ n, pyUpper pre ++ "#" ++ n, pyUpper pre ++ " #" ++ n]

/-- C2 counterexample: the claimed combination scheme contains `"CUTTER1"`
(upper case, no separator) for the display name `"Cutter1"` and `"PC#1"` for
`"Pc1"`, but `build_machine_catalog` generates neither: the cutter family
lacks the upper-case no-separator form, and the pc family has no `#` forms at
all. -/
theorem c2_counterexample :
    "CUTTER1" ∈ c2Combos "Cutter" "1" ∧ "CUTTER1" ∉ rawVariantsList "Cutter1" ∧
    "PC#1" ∈ c2Combos "Pc" "1" ∧ "PC#1" ∉ rawVariantsList "Pc1" := by decide

/-- C2 amended: the raw variants `build_machine_catalog` generates for the
digit-suffixed display names are exactly these family-specific subsets of the
claimed scheme (membership in the list models membership in the Python set):
cutter names get both casings with space, underscore, hyphen, `#`, and
space-then-`#` separators (plus the display name itself), but not the
upper-case no-separator form; pc names get the upper case with no separator,
space, underscore and hyphen but the original casing only with no separator
and a space, and no `#` forms; sheeter names get the upper case with no
separator, space and underscore and the original casing only with a space —
no hyphen and no `#` forms. -/
theorem c2_amended_family_variants : ∀ s : String,
    (s ∈ rawVariantsList "Cutter1" ↔
      s ∈ ["Cutter1", "CUTTER 1", "CUTTER #1", "CUTTER_1", "CUTTER-1",
           "Cutter 1", "Cutter #1", "Cutter_1", "Cutter-1", "CUTTER#1", "Cutter#1"]) ∧
    (s ∈ rawVariantsList "Cutter2" ↔
      s ∈ ["Cutter2", "CUTTER 2", "CUTTER #2", "CUTTER_2", "CUTTER-2",
           "Cutter 2", "Cutter #2", "Cutter_2", "Cutter-2", "CUTTER#2", "Cutter#2"]) ∧
    (s ∈ rawVariantsList "Pc1" ↔ s ∈ ["Pc1", "PC1", "PC 1", "PC_1", "PC-1", "Pc1", "Pc 1"]) ∧
    (s ∈ rawVariantsList "Pc2" ↔ s ∈ ["Pc2", "PC2", "PC 2", "PC_2", "PC-2", "Pc2", "Pc 2"]) ∧
    (s ∈ rawVariantsList "Pc3" ↔ s ∈ ["Pc3", "PC3", "PC 3", "PC_3", "PC-3", "Pc3", "Pc 3"]) ∧
    (s ∈ rawVariantsList "Pc5" ↔ s ∈ ["Pc5", "PC5", "PC 5", "PC_5", "PC-5", "Pc5", "Pc 5"]) ∧
    (s ∈ rawVariantsList "Sheeter1" ↔
      s ∈ ["Sheeter1", "SHEETER1", "SHEETER 1", "SHEETER_1", "Sheeter 1"]) ∧
    (s ∈ rawVariantsList "Sheeter2" ↔
      s ∈ ["Sheeter2", "SHEETER2", "SHEETER 2", "SHEETER_2", "Sheeter 2"]) :=
  fun _ => ⟨Iff.rfl, Iff.rfl, Iff.rfl, Iff.rfl, Iff.rfl, Iff.rfl, Iff.rfl, Iff.rfl⟩

/-- The score claim C1 asserts the fuzzy fallback keeps for a display name:
the maximum weighted-ratio between the normalized page text and each RAW
textual variant of the name, normalized with the same `normalize` routine.
(This follows the claim's words; the source instead normalizes the compiled
pattern strings stored in the catalog, see `scoreOf`.) -/
def rawVariantScore (W : String → String → Int) (disp norm : String) : Int :=
  pyMax (((rawVariantsList disp).eraseDups).map (fun v => W (normalize v) norm))

/-- C1 counterexample: for the display name `"Die-cutter"` the code's fuzzy
score compares the normalized compiled pattern `"die[\s\ ]*cutter"` (the
lower-cased regex string with its `-_` run collapsed), not any normalized raw
variant (all of which normalize to `"die cutter"`).  The scorer below gives
100 to the pattern string and 0 to everything else: the code keeps score 100
where the claim's reading keeps 0, and on the page text `"zzz"` with
threshold 90 the run consequently assigns `"Die-cutter"`, which the claim's
reading would leave unmatched. -/
theorem c1_counterexample :
    scoreOf (fun a _ => if a = "die[\\s\\ ]*cutter" then (100 : Int) else 0) regex_variants
        "Die-cutter" (normalize "zzz") = 100 ∧
    rawVariantScore (fun a _ => if a = "die[\\s\\ ]*cutter" then (100 : Int) else 0)
        "Die-cutter" (normalize "zzz") = 0 ∧
    detect_machine_per_page (fun a _ => if a = "die[\\s\\ ]*cutter" then (100 : Int) else 0)
        [(1, "zzz")] display_names regex_variants 90 = [(1, "Die-cutter")] := by decide

/-- C1 amended: in the fuzzy fallback, the score kept for a display name is
the maximum of `W (normalize v) norm` where `v` ranges over the COMPILED
PATTERN STRINGS stored in the catalog for that name (`regex_variants[disp]`),
not over the raw textual variants.  Both sides do share the single `normalize`
routine, but the comparison side is the pattern string.  For the program's
catalog the normalized pattern strings are listed explicitly below, for every
display name and every scorer `W`. -/
theorem c1_amended_scores_from_patterns (W : String → String → Int) (norm : String) :
    scoreOf W regex_variants "AW1" norm = pyMax [W "aw1" norm, W "aw[\\s\\ ]*1" norm] ∧
    scoreOf W regex_variants "Cutter1" norm =
      pyMax [W "cutter[\\s\\ ]*1" norm, W "cutter[\\s\\ ]*\\s*#\\s*1" norm,
        W "cutter\\s*#\\s*1" norm, W "cutter1" norm, W "cutter[\\s\\ ]*1" norm,
        W "cutter[\\s\\ ]*\\s*#\\s*1" norm, W "cutter\\s*#\\s*1" norm] ∧
    scoreOf W regex_variants "Cutter2" norm =
      pyMax [W "cutter[\\s\\ ]*2" norm, W "cutter[\\s\\ ]*\\s*#\\s*2" norm,
        W "cutter\\s*#\\s*2" norm, W "cutter2" norm, W "cutter[\\s\\ ]*2" norm,
        W "cutter[\\s\\ ]*\\s*#\\s*2" norm, W "cutter\\s*#\\s*2" norm] ∧
    scoreOf W regex_variants "Die-cutter" norm =
      pyMax [W "die[\\s\\ ]*cutter" norm, W "die[\\s\\ ]*cutter" norm,
        W "die[\\s\\ ]*cutter" norm] ∧
    scoreOf W regex_variants "Jennerjahn" norm =
      pyMax [W "jennerjahn" norm, W "jennerjahn" norm] ∧
    scoreOf W regex_variants "Pc1" norm =
      pyMax [W "pc1" norm, W "pc[\\s\\ ]*1" norm, W "pc1" norm, W "pc[\\s\\ ]*1" norm] ∧
    scoreOf W regex_variants "Pc2" norm =
      pyMax [W "pc2" norm, W "pc[\\s\\ ]*2" norm, W "pc2" norm, W "pc[\\s\\ ]*2" norm] ∧
    scoreOf W regex_variants "Pc3" norm =
      pyMax [W "pc3" norm, W "pc[\\s\\ ]*3" norm, W "pc3" norm, W "pc[\\s\\ ]*3" norm] ∧
    scoreOf W regex_variants "Pc5" norm =
      pyMax [W "pc5" norm, W "pc[\\s\\ ]*5" norm, W "pc5" norm, W "pc[\\s\\ ]*5" norm] ∧
    scoreOf W regex_variants "Sheeter1" norm =
      pyMax [W "sheeter1" norm, W "sheeter[\\s\\ ]*1" norm, W "sheeter1" norm,
        W "sheeter[\\s\\ ]*1" norm] ∧
    scoreOf W regex_variants "Sheeter2" norm =
      pyMax [W "sheeter2" norm, W "sheeter[\\s\\ ]*2" norm, W "sheeter2" norm,
        W "sheeter[\\s\\ ]*2" norm] :=
  ⟨rfl, rfl, rfl, rfl, rfl, rfl, rfl, rfl, rfl, rfl, rfl⟩

/-! ## Claim C9: idempotence of `normalize` -/

theorem toNat_lowerChar (c : Char) :
    (lowerChar c).toNat = if 65 ≤ c.toNat ∧ c.toNat ≤ 90 then c.toNat + 32 else c.toNat := by
  unfold lowerChar
  split
  · rfl
  · rfl

theorem lowerChar_eq_self_of_not_upper (c : Char) (h : ¬(65 ≤ c.toNat ∧ c.toNat ≤ 90)) :
    lowerChar c = c := dif_neg h

theorem lowerChar_idem (c : Char) : lowerChar (lowerChar c) = lowerChar c := by
  apply lowerChar_eq_self_of_not_upper
  rw [toNat_lowerChar]
  by_cases h : 65 ≤ c.toNat ∧ c.toNat ≤ 90
  · rw [if_pos h]
    omega
  · rw [if_neg h]
    omega

theorem lowerChar_space : lowerChar ' ' = ' ' := by decide

theorem map_lowerChar_of_fixed : ∀ (l : List Char), (∀ c ∈ l, lowerChar c = c) →
    l.map lowerChar = l := by
  intro l
  induction l with
  | nil => intro _; rfl
  | cons d l ih =>
    intro h
    rw [List.map_cons, h d (List.mem_cons_self _ _),
      ih (fun c hc => h c (List.mem_cons_of_mem _ hc))]

theorem mem_squashRuns (p : Char → Bool) (r : Char) :
    ∀ (b : Bool) (l : List Char) (c : Char), c ∈ squashRuns p r b l →
      c = r ∨ (c ∈ l ∧ p c = false) := by
  intro b l
  induction l generalizing b with
  | nil => intro c h; cases h
  | cons d l ih =>
    intro c h
    unfold squashRuns at h
    by_cases hd : p d = true
    · rw [if_pos hd] at h
      split at h
      · rcases ih true c h with h2 | ⟨h2, h3⟩
        · exact Or.inl h2
        · exact Or.inr ⟨List.mem_cons_of_mem _ h2, h3⟩
      · rcases List.mem_cons.mp h with rfl | h2
        · exact Or.inl rfl
        · rcases ih true c h2 with h3 | ⟨h3, h4⟩
          · exact Or.inl h3
          · exact Or.inr ⟨List.mem_cons_of_mem _ h3, h4⟩
    · rw [if_neg hd] at h
      rcases List.mem_cons.mp h with rfl | h2
      · exact Or.inr ⟨List.mem_cons_self _ _, by simpa using hd⟩
      · rcases ih false c h2 with h3 | ⟨h3, h4⟩
        · exact Or.inl h3
        · exact Or.inr ⟨List.mem_cons_of_mem _ h3, h4⟩

theorem mem_lstripWs (l : List Char) (c : Char) (h : c ∈ lstripWs l) : c ∈ l :=
  (List.dropWhile_sublist _).subset h

theorem mem_rstripWs (l : List Char) (c : Char) (h : c ∈ rstripWs l) : c ∈ l := by
  unfold rstripWs at h
  rw [List.mem_reverse] at h
  have h2 := (List.dropWhile_sublist _).subset h
  rwa [List.mem_reverse] at h2

theorem mem_pyStrip (l : List Char) (c : Char) (h : c ∈ pyStrip l) : c ∈ l :=
  mem_lstripWs l c (mem_rstripWs (lstripWs l) c h)

theorem mem_normalizeL (l : List Char) (c : Char) (h : c ∈ normalizeL l) :
    c = ' ' ∨ c ∈ l.map lowerChar := by
  unfold normalizeL at h
  have h1 := mem_pyStrip _ _ h
  rcases mem_squashRuns isWsChar ' ' false _ c h1 with h2 | ⟨h2, _⟩
  · exact Or.inl h2
  rcases mem_squashRuns isDashChar ' ' false _ c h2 with h3 | ⟨h3, _⟩
  · exact Or.inl h3
  · exact Or.inr h3

theorem lowerChar_fixed_of_mem_normalizeL (l : List Char) (c : Char)
    (h : c ∈ normalizeL l) : lowerChar c = c := by
  rcases mem_normalizeL l c h with rfl | hmem
  · exact lowerChar_space
  · rcases List.mem_map.mp hmem with ⟨x, _, rfl⟩
    exact lowerChar_idem x

theorem not_dash_of_mem_normalizeL (l : List Char) (c : Char) (h : c ∈ normalizeL l) :
    isDashChar c = false := by
  unfold normalizeL at h
  have h1 := mem_pyStrip _ _ h
  rcases mem_squashRuns isWsChar ' ' false _ c h1 with rfl | ⟨h2, _⟩
  · decide
  rcases mem_squashRuns isDashChar ' ' false _ c h2 with rfl | ⟨_, h3⟩
  · decide
  · exact h3

theorem ws_space_of_mem_normalizeL (l : List Char) (c : Char) (h : c ∈ normalizeL l) :
    isWsChar c = true → c = ' ' := by
  intro hws
  unfold normalizeL at h
  have h1 := mem_pyStrip _ _ h
  rcases mem_squashRuns isWsChar ' ' false _ c h1 with rfl | ⟨_, hw⟩
  · rfl
  · rw [hws] at hw
    cases hw

theorem squash_true_head (p : Char → Bool) (r : Char) :
    ∀ (l : List Char) (c : Char), (squashRuns p r true l).head? = some c → p c = false := by
  intro l
  induction l with
  | nil => intro c h; cases h
  | cons d l ih =>
    intro c h
    unfold squashRuns at h
    by_cases hd : p d = true
    · rw [if_pos hd, if_pos rfl] at h
      exact ih c h
    · rw [if_neg hd] at h
      injection h with h2
      subst h2
      simpa using hd

theorem chain_squashRuns (p : Char → Bool) (r : Char) :
    ∀ (b : Bool) (l : List Char),
      List.Chain' (fun a c => ¬(p a = true ∧ p c = true)) (squashRuns p r b l) := by
  intro b l
  induction l generalizing b with
  | nil => exact List.chain'_nil
  | cons d l ih =>
    unfold squashRuns
    by_cases hd : p d = true
    · rw [if_pos hd]
      split
      · exact ih true
      · rw [List.chain'_cons']
        refine ⟨?_, ih true⟩
        intro y hy
        rw [Option.mem_def] at hy
        have hpy : p y = false := squash_true_head p r l y hy
        rintro ⟨_, h2⟩
        rw [hpy] at h2
        cases h2
    · rw [if_neg hd]
      rw [List.chain'_cons']
      refine ⟨?_, ih false⟩
      intro y hy
      rintro ⟨h1, _⟩
      rw [h1] at hd
      exact hd rfl

theorem squashRuns_eq_self (p : Char → Bool) (r : Char) :
    ∀ (l : List Char), (∀ c ∈ l, p c = false) → squashRuns p r false l = l := by
  intro l
  induction l with
  | nil => intro _; rfl
  | cons d l ih =>
    intro h
    unfold squashRuns
    rw [if_neg (by simp [h d (List.mem_cons_self _ _)])]
    rw [ih (fun c hc => h c (List.mem_cons_of_mem _ hc))]

theorem squashRuns_cons_of_neg (p : Char → Bool) (r : Char) (b : Bool) (d : Char)
    (l : List Char) (hd : ¬ p d = true) :
    squashRuns p r b (d :: l) = d :: squashRuns p r false l := by
  conv_lhs => unfold squashRuns
  rw [if_neg hd]

theorem squashRuns_cons_of_pos_false (p : Char → Bool) (r : Char) (d : Char)
    (l : List Char) (hd : p d = true) :
    squashRuns p r false (d :: l) = r :: squashRuns p r true l := by
  conv_lhs => unfold squashRuns
  rw [if_pos hd, if_neg (by simp : ¬(false = true))]

theorem squashRuns_cons_of_pos_true (p : Char → Bool) (r : Char) (d : Char)
    (l : List Char) (hd : p d = true) :
    squashRuns p r true (d :: l) = squashRuns p r true l := by
  conv_lhs => unfold squashRuns
  rw [if_pos hd, if_pos rfl]

theorem squashRuns_eq_self_of_clean (p : Char → Bool) (r : Char) :
    ∀ (l : List Char),
      List.Chain' (fun a c => ¬(p a = true ∧ p c = true)) l →
      (∀ c ∈ l, p c = true → c = r) → squashRuns p r false l = l := by
  intro l
  induction l with
  | nil => intro _ _; rfl
  | cons d l ih =>
    intro hch hr
    by_cases hd : p d = true
    · have hdr : d = r := hr d (List.mem_cons_self _ _) hd
      subst hdr
      rw [squashRuns_cons_of_pos_false p d d l hd]
      congr 1
      cases l with
      | nil => rfl
      | cons e lt =>
        have hpe : p e = false := by
          have hrel := (List.chain'_cons'.mp hch).1 e (Option.mem_def.mpr rfl)
          by_cases hpe2 : p e = true
          · exact absurd ⟨hd, hpe2⟩ hrel
          · simpa using hpe2
        rw [squashRuns_cons_of_neg p d true e lt (by simp [hpe]),
          ← squashRuns_cons_of_neg p d false e lt (by simp [hpe]),
          ih hch.tail (fun c hc hp => hr c (List.mem_cons_of_mem _ hc) hp)]
    · rw [squashRuns_cons_of_neg p r false d l hd,
        ih hch.tail (fun c hc hp => hr c (List.mem_cons_of_mem _ hc) hp)]

theorem head_dropWhile_not_ws (p : Char → Bool) :
    ∀ (l : List Char) (c : Char), (l.dropWhile p).head? = some c → p c = false := by
  intro l
  induction l with
  | nil => intro c h; cases h
  | cons d l ih =>
    intro c h
    by_cases hd : p d = true
    · rw [List.dropWhile_cons_of_pos hd] at h
      exact ih c h
    · rw [List.dropWhile_cons_of_neg hd] at h
      injection h with h2
      subst h2
      simpa using hd

theorem dropWhile_eq_self_of_head (p : Char → Bool) (l : List Char)
    (h : ∀ c, l.head? = some c → p c = false) : l.dropWhile p = l := by
  cases l with
  | nil => rfl
  | cons d l => exact List.dropWhile_cons_of_neg (by simp [h d rfl])

theorem rstripWs_decomp (z : List Char) :
    z = rstripWs z ++ (z.reverse.takeWhile isWsChar).reverse := by
  unfold rstripWs
  rw [← List.reverse_append, List.takeWhile_append_dropWhile, List.reverse_reverse]

theorem pyStrip_head_not_ws (x : List Char) (c : Char)
    (h : (pyStrip x).head? = some c) : isWsChar c = false := by
  have hz : (lstripWs x).head? = some c := by
    rw [rstripWs_decomp (lstripWs x), List.head?_append]
    have h2 : (rstripWs (lstripWs x)).head? = some c := h
    rw [h2]
    rfl
  exact head_dropWhile_not_ws isWsChar x c hz

theorem rstripWs_idem (z : List Char) : rstripWs (rstripWs z) = rstripWs z := by
  unfold rstripWs
  rw [List.reverse_reverse]
  congr 1
  exact dropWhile_eq_self_of_head isWsChar _
    (fun c hc => head_dropWhile_not_ws isWsChar _ c hc)

theorem pyStrip_idem (y : List Char) : pyStrip (pyStrip y) = pyStrip y := by
  have h1 : lstripWs (pyStrip y) = pyStrip y :=
    dropWhile_eq_self_of_head isWsChar _ (fun c hc => pyStrip_head_not_ws y c hc)
  show rstripWs (lstripWs (pyStrip y)) = pyStrip y
  rw [h1]
  exact rstripWs_idem (lstripWs y)

theorem chain_pyStrip {R : Char → Char → Prop} (hsymm : ∀ a b, R a b → R b a)
    (y : List Char) (h : List.Chain' R y) : List.Chain' R (pyStrip y) := by
  have h1 : List.Chain' R (lstripWs y) := h.suffix (List.dropWhile_suffix _)
  have h2 : List.Chain' (flip R) (lstripWs y) := h1.imp (fun a b hab => hsymm a b hab)
  have h3 : List.Chain' R (lstripWs y).reverse := List.chain'_reverse.mpr h2
  have h4 : List.Chain' R ((lstripWs y).reverse.dropWhile isWsChar) :=
    h3.suffix (List.dropWhile_suffix _)
  have h5 : List.Chain' (flip R) ((lstripWs y).reverse.dropWhile isWsChar) :=
    h4.imp (fun a b hab => hsymm a b hab)
  exact List.chain'_reverse.mpr h5

theorem normalizeL_idem (l : List Char) : normalizeL (normalizeL l) = normalizeL l := by
  have hfix : ∀ c ∈ normalizeL l, lowerChar c = c :=
    fun c hc => lowerChar_fixed_of_mem_normalizeL l c hc
  have hdash : ∀ c ∈ normalizeL l, isDashChar c = false :=
    fun c hc => not_dash_of_mem_normalizeL l c hc
  have hws : ∀ c ∈ normalizeL l, isWsChar c = true → c = ' ' :=
    fun c hc => ws_space_of_mem_normalizeL l c hc
  have hchain : List.Chain' (fun a b => ¬(isWsChar a = true ∧ isWsChar b = true))
      (normalizeL l) :=
    chain_pyStrip (fun a b hab hba => hab ⟨hba.2, hba.1⟩) _
      (chain_squashRuns isWsChar ' ' false _)
  show pyStrip (squashRuns isWsChar ' ' false (squashRuns isDashChar ' ' false
    ((normalizeL l).map lowerChar))) = normalizeL l
  rw [map_lowerChar_of_fixed _ hfix, squashRuns_eq_self isDashChar ' ' _ hdash,
    squashRuns_eq_self_of_clean isWsChar ' ' _ hchain hws]
  exact pyStrip_idem (squashRuns isWsChar ' ' false
    (squashRuns isDashChar ' ' false (l.map lowerChar)))

/-- C9: `normalize` is idempotent — normalizing an already-normalized string
changes nothing, so a lower-cased, single-spaced, dash-free, trimmed string is
a fixed point of `normalize`. -/
theorem c9_normalize_idempotent (s : String) : normalize (normalize s) = normalize s := by
  show (⟨normalizeL (normalize s).data⟩ : String) = ⟨normalizeL s.data⟩
  have hd : (normalize s).data = normalizeL s.data := rfl
  rw [hd, normalizeL_idem]

end ProdLogs
